import Mathlib

/-!
# Verification of the k-means specification of `codas-ml`

The repository's notebooks invoke an external library's k-means; the
specification restates the algorithm (Lloyd's method) abstractly.  This file
embeds that restated procedure over rational-valued feature rows, together
with the small functional-programming examples the notebooks do contain,
and proves or refutes the specification's claims about them.

Rational arithmetic: points are lists of rationals, squared Euclidean
distance and coordinate-wise means are exact rational computations.
-/

attribute [local semireducible] Rat.add Rat.sub Rat.mul Rat.inv

namespace CodasML

/-- A feature row (or centroid): a vector of rational coordinates. -/
abbrev Point := List ℚ

/-- Modelled from the spec: squared Euclidean distance between two
equal-dimension vectors (coordinate-wise squared differences, summed). -/
def sqDist (x y : Point) : ℚ :=
  (List.zipWith (fun a b => (a - b) ^ 2) x y).sum

/-- Modelled from the spec: minimum over a centroid list of the squared
distance from `x` (0 for an empty list). -/
def minDist (x : Point) : List Point → ℚ
  | [] => 0
  | [c] => sqDist x c
  | c :: c' :: cs => min (sqDist x c) (minDist x (c' :: cs))

/-- Modelled from the spec: the index of the centroid of minimum squared
Euclidean distance from `x`, ties broken by lowest centroid index. -/
def nearest (x : Point) : List Point → ℕ
  | [] => 0
  | [_] => 0
  | c :: c' :: cs =>
    if sqDist x c ≤ minDist x (c' :: cs) then 0 else nearest x (c' :: cs) + 1

/-- Modelled from the spec: the assignment step — each row is assigned the
index of its nearest centroid. -/
def assignStep (xs cs : List Point) : List ℕ :=
  xs.map (fun x => nearest x cs)

/-- The rows currently assigned to cluster `k`. -/
def clusterRows (xs : List Point) (a : List ℕ) (k : ℕ) : List Point :=
  ((xs.zip a).filter (fun p => p.2 == k)).map Prod.fst

/-- Coordinate-wise sum of a list of equal-dimension vectors. -/
def pointSum : List Point → Point
  | [] => []
  | [p] => p
  | p :: q :: ps => List.zipWith (· + ·) p (pointSum (q :: ps))

/-- Modelled from the spec: a cluster's new centroid — the coordinate-wise
mean of its rows; a cluster with zero assigned rows keeps its previous
centroid. -/
def centroidOf (ps : List Point) (old : Point) : Point :=
  match ps with
  | [] => old
  | _ :: _ => (pointSum ps).map (fun q => q / (ps.length : ℚ))

/-- Modelled from the spec: the update step — every centroid is recomputed as
the mean of its assigned rows (kept unchanged when no rows are assigned). -/
def updateStep (xs : List Point) (a : List ℕ) (cs : List Point) : List Point :=
  (List.range cs.length).map (fun k => centroidOf (clusterRows xs a k) (cs.getD k []))

/-- Modelled from the spec: the sum-of-squared-distances objective of an
assignment `a` with centroid list `cs`. -/
def cost (xs : List Point) (a : List ℕ) (cs : List Point) : ℚ :=
  ((xs.zip a).map (fun p => sqDist p.1 (cs.getD p.2 []))).sum

/-- Modelled from the spec: the iterative loop; each round computes the
assignment for the current centroids, stops when no row changed assignment,
and otherwise recomputes the centroids.  `fuel` is the iteration cap. -/
def lloydLoop (xs : List Point) : ℕ → List ℕ → List Point → List ℕ × List Point
  | 0, a, cs => (a, cs)
  | fuel + 1, a, cs =>
    let a' := assignStep xs cs
    if a' = a then (a, cs) else lloydLoop xs fuel a' (updateStep xs a' cs)

/-- Modelled from the spec: a full run from initial centroids `cs0` — a first
assignment/update iteration followed by the capped loop. -/
def kmeansRun (xs cs0 : List Point) (cap : ℕ) : List ℕ × List Point :=
  let a1 := assignStep xs cs0
  lloydLoop xs cap a1 (updateStep xs a1 cs0)

/-- Every row of `l` has dimension `D`. -/
abbrev rectangular (D : ℕ) (l : List Point) : Prop := ∀ p ∈ l, p.length = D

/-- Every assigned cluster index is below `K`. -/
abbrev validAssign (K : ℕ) (a : List ℕ) : Prop := ∀ k ∈ a, k < K

/-- The stopping condition “no row changes assignment”: the assignment of the
state's centroids is the state's assignment. -/
abbrev converged (xs : List Point) (st : List ℕ × List Point) : Prop :=
  assignStep xs st.2 = st.1

/-! ## The assignment step assigns each row a nearest centroid,
with ties broken by lowest index. -/

/-- One-dimensional squared-distance cost of a value list against a center. -/
def oneCost (vs : List ℚ) (b : ℚ) : ℚ := (vs.map (fun v => (v - b) ^ 2)).sum

/-- Within-cluster squared-distance cost of a row list against a centroid. -/
def clusterCost (ps : List Point) (c : Point) : ℚ :=
  (ps.map (fun p => sqDist p c)).sum

/-- The potential of an assignment: its objective measured against its own
cluster means (empty clusters contribute nothing). -/
def lloydPotential (xs : List Point) (K : ℕ) (a : List ℕ) : ℚ :=
  ∑ k ∈ Finset.range K,
    clusterCost (clusterRows xs a k) (centroidOf (clusterRows xs a k) [])

/-- The labeled-partition encoding of an assignment list. -/
def listOf {N K : ℕ} (b : Fin N → Fin K) : List ℕ :=
  (List.finRange N).map (fun i => (b i : ℕ))

/-- The labeled partitions of potential strictly below a bound. -/
def potSet (xs : List Point) (N K : ℕ) (q : ℚ) : Finset (Fin N → Fin K) :=
  Finset.univ.filter (fun b => lloydPotential xs K (listOf b) < q)

/-- The values of feature column `j` across a dataset. -/
def colVals (xs : List Point) (j : ℕ) : List ℚ := xs.map (fun p => p.getD j 0)

def listMin : List ℚ → ℚ
  | [] => 0
  | [q] => q
  | q :: r :: l => min q (listMin (r :: l))

def listMax : List ℚ → ℚ
  | [] => 0
  | [q] => q
  | q :: r :: l => max q (listMax (r :: l))

/-- Modelled from the spec: per-feature min–max scaling of a `D`-column
dataset (a constant column is sent to `0`). -/
def minMaxNormalize (D : ℕ) (xs : List Point) : List Point :=
  xs.map (fun p => (List.range D).map (fun j =>
    if listMax (colVals xs j) = listMin (colVals xs j) then 0
    else (p.getD j 0 - listMin (colVals xs j))
      / (listMax (colVals xs j) - listMin (colVals xs j))))

/-- The four rows of the spec's literal end-to-end scenario. -/
def scenarioRows : List Point := [[0,0],[0,1],[10,0],[10,1]]

/-- The four rows of the spec's scale-sensitivity scenario. -/
def scaleRows : List Point := [[1,1000],[2,1000],[10,1],[11,1]]

/-- A run of the end-to-end scenario from the initial pair `(c0, c1)`
reaches the spec's expected outcome: it converges, its centroids are
`[0, 1/2]` and `[10, 1/2]` in some order, rows 0 and 1 share a cluster and
rows 2 and 3 share the other. -/
abbrev scenarioGood (c0 c1 : Point) : Prop :=
  converged scenarioRows (kmeansRun scenarioRows [c0, c1] 16) ∧
  ((kmeansRun scenarioRows [c0, c1] 16).2 = [[0,1/2],[10,1/2]] ∨
    (kmeansRun scenarioRows [c0, c1] 16).2 = [[10,1/2],[0,1/2]]) ∧
  (kmeansRun scenarioRows [c0, c1] 16).1.getD 0 0
    = (kmeansRun scenarioRows [c0, c1] 16).1.getD 1 0 ∧
  (kmeansRun scenarioRows [c0, c1] 16).1.getD 2 0
    = (kmeansRun scenarioRows [c0, c1] 16).1.getD 3 0 ∧
  (kmeansRun scenarioRows [c0, c1] 16).1.getD 0 0
    ≠ (kmeansRun scenarioRows [c0, c1] 16).1.getD 2 0

/-! ## Seeded initialization (determinism under a fixed seed). -/

/-- Modelled from the spec: a seeded pseudo-random choice of `K` initial
centroids from the dataset rows — a deterministic function of the seed. -/
def seededInit (seed : ℕ) (xs : List Point) (K : ℕ) : List Point :=
  (List.range K).map (fun i => xs.getD ((seed * (i + 1) + i) % xs.length) [])

/-- Modelled from the spec: a full seeded run of the procedure. -/
def kmeansSeeded (seed : ℕ) (xs : List Point) (K cap : ℕ) :
    List ℕ × List Point :=
  kmeansRun xs (seededInit seed xs K) cap

/-! ## The notebooks' tabular reads, transcribed. -/

/-- One delimiter-separated-values read performed by the notebooks. -/
structure ReadCall where
  path : String
  delimiter : String
  headerInferred : Bool
  namesSupplied : Bool
deriving DecidableEq

/-- Transcribed from the source notebooks: every tabular/text file read.
In order: the pandas read of the articles dataset with separator `|`, the
spark read of the articles dataset with header inference and delimiter `|`,
and the pandas read of the mortgage-by-tract dataset with the default comma
separator and an explicit column-name list. -/
def readCalls : List ReadCall :=
  [⟨"./data/Articles.csv", "|", true, false⟩,
   ⟨"/data/Articles.csv", "|", true, false⟩,
   ⟨"./data/fha_by_tract.csv", ",", false, true⟩]

/-! ## The notebooks' functional-primitive demonstrations, transcribed. -/

/-- `simple_squares`: the imperative append-in-a-loop squaring. -/
def simple_squares (numbers : List ℤ) : List ℤ :=
  numbers.foldl (fun squares number => squares ++ [number * number]) []

/-- The named squaring function `square`. -/
def square (x : ℤ) : ℤ := x * x

/-- `python_squares`: `map(square, numbers)`. -/
def python_squares (numbers : List ℤ) : List ℤ := numbers.map square

/-- `python_squares_lambda`: the same map with an anonymous function. -/
def python_squares_lambda (numbers : List ℤ) : List ℤ :=
  numbers.map (fun x => x * x)

/-- The imperative loop appending `number*number` for each `number < 4`. -/
def loopFilterSquares (numbers : List ℤ) : List ℤ :=
  numbers.foldl (fun squares number =>
    if number < 4 then squares ++ [number * number] else squares) []

/-- The expression `map` of squaring over `filter` of `< 4`. -/
def mapFilterSquares (numbers : List ℤ) : List ℤ :=
  (numbers.filter (fun x => decide (x < 4))).map (fun x => x * x)

/-- `sc.parallelize(numbers)` modelled by its list of elements. -/
def parallelize (numbers : List ℤ) : List ℤ := numbers

/-- `collect` on a distributed collection modelled by its list of elements. -/
def collect (rdd : List ℤ) : List ℤ := rdd

/-- The distributed `filter`-then-`map` pipeline followed by `collect`. -/
def rddFilterMapSquares (numbers : List ℤ) : List ℤ :=
  collect (((parallelize numbers).filter (fun x => decide (x < 4))).map
    (fun x => x * x))

theorem nearest_lt_length (x : Point) :
    ∀ (cs : List Point), cs ≠ [] → nearest x cs < cs.length
  | [], h => absurd rfl h
  | [_], _ => by simp [nearest]
  | c :: c' :: cs, _ => by
    by_cases h : sqDist x c ≤ minDist x (c' :: cs)
    · simp [nearest, h]
    · have ih := nearest_lt_length x (c' :: cs) (by simp)
      simp only [List.length_cons] at ih
      simp only [nearest, if_neg h, List.length_cons]
      omega

theorem minDist_le (x : Point) :
    ∀ (cs : List Point) (j : ℕ), j < cs.length →
      minDist x cs ≤ sqDist x (cs.getD j [])
  | [], j, h => by simp at h
  | [c], 0, _ => by simp [minDist]
  | [c], j + 1, h => by simp at h
  | c :: c' :: cs, 0, _ => by
    simp only [minDist, List.getD_cons_zero]
    exact min_le_left _ _
  | c :: c' :: cs, j + 1, h => by
    have ih := minDist_le x (c' :: cs) j (by simpa using h)
    simp only [minDist, List.getD_cons_succ]
    exact le_trans (min_le_right _ _) ih

theorem sqDist_nearest (x : Point) :
    ∀ (cs : List Point), cs ≠ [] →
      sqDist x (cs.getD (nearest x cs) []) = minDist x cs
  | [], h => absurd rfl h
  | [c], _ => by simp [nearest, minDist]
  | c :: c' :: cs, _ => by
    by_cases h : sqDist x c ≤ minDist x (c' :: cs)
    · simp only [nearest, if_pos h, minDist, List.getD_cons_zero]
      exact (min_eq_left h).symm
    · have ih := sqDist_nearest x (c' :: cs) (by simp)
      simp only [nearest, if_neg h, minDist, List.getD_cons_succ]
      rw [ih]
      exact (min_eq_right (le_of_lt (not_le.mp h))).symm

theorem minDist_lt_of_lt_nearest (x : Point) :
    ∀ (cs : List Point) (j : ℕ), j < nearest x cs →
      minDist x cs < sqDist x (cs.getD j [])
  | [], j, h => by simp [nearest] at h
  | [c], j, h => by simp [nearest] at h
  | c :: c' :: cs, j, hj => by
    by_cases h : sqDist x c ≤ minDist x (c' :: cs)
    · simp [nearest, if_pos h] at hj
    · have hlt : minDist x (c' :: cs) < sqDist x c := not_le.mp h
      have hmin : minDist x (c :: c' :: cs) = minDist x (c' :: cs) :=
        min_eq_right (le_of_lt hlt)
      match j with
      | 0 => simpa [hmin, List.getD_cons_zero] using hlt
      | j + 1 => (
        simp only [nearest, if_neg h, Nat.add_lt_add_iff_right] at hj;
        have ih := minDist_lt_of_lt_nearest x (c' :: cs) j hj;
        simpa [hmin, List.getD_cons_succ] using ih)

theorem assignStep_length (xs cs : List Point) :
    (assignStep xs cs).length = xs.length := by
  simp [assignStep]

theorem assignStep_valid (xs cs : List Point) (h : cs ≠ []) :
    validAssign cs.length (assignStep xs cs) := by
  intro k hk
  rcases List.mem_map.mp hk with ⟨x, -, rfl⟩
  exact nearest_lt_length x cs h

/-! ## The assignment step never increases the objective. -/

theorem cost_nil_left (a : List ℕ) (cs : List Point) : cost [] a cs = 0 := by
  simp [cost]

theorem cost_cons (x : Point) (xs : List Point) (k : ℕ) (a : List ℕ)
    (cs : List Point) :
    cost (x :: xs) (k :: a) cs = sqDist x (cs.getD k []) + cost xs a cs := by
  simp [cost]

theorem cost_assignStep_le (cs : List Point) (hcs : cs ≠ []) :
    ∀ (xs : List Point) (a : List ℕ), a.length = xs.length →
      validAssign cs.length a →
      cost xs (assignStep xs cs) cs ≤ cost xs a cs
  | [], a, _, _ => by simp [cost, assignStep]
  | x :: xs, [], h, _ => by simp at h
  | x :: xs, k :: a, h, hv => by
    have ih := cost_assignStep_le cs hcs xs a (by simpa using h)
      (fun k' hk' => hv k' (List.mem_cons_of_mem _ hk'))
    have h1 : sqDist x (cs.getD (nearest x cs) []) = minDist x cs :=
      sqDist_nearest x cs hcs
    have h2 : minDist x cs ≤ sqDist x (cs.getD k []) :=
      minDist_le x cs k (hv k (List.mem_cons_self _ _))
    have hstep : assignStep (x :: xs) cs = nearest x cs :: assignStep xs cs := by
      simp [assignStep]
    rw [hstep, cost_cons, cost_cons, h1]
    exact add_le_add (le_trans h2 (le_refl _)) ih

/-! ## The coordinate-wise mean minimizes within-cluster squared distance. -/

theorem oneCost_expand (b : ℚ) : ∀ (vs : List ℚ),
    oneCost vs b
      = (vs.map (fun v => v ^ 2)).sum - 2 * b * vs.sum + (vs.length : ℚ) * b ^ 2
  | [] => by simp [oneCost]
  | v :: vs => by
    have ih := oneCost_expand b vs
    simp only [oneCost, List.map_cons, List.sum_cons, List.length_cons] at ih ⊢
    rw [ih]
    push_cast
    ring

theorem oneCost_mean_le (vs : List ℚ) (n μ b : ℚ) (hn : 0 < n)
    (hlen : (vs.length : ℚ) = n) (hsum : vs.sum = n * μ) :
    oneCost vs μ ≤ oneCost vs b := by
  rw [oneCost_expand, oneCost_expand, hlen, hsum]
  nlinarith [mul_nonneg hn.le (sq_nonneg (μ - b))]

theorem oneCost_mean_lt (vs : List ℚ) (n μ b : ℚ) (hn : 0 < n)
    (hlen : (vs.length : ℚ) = n) (hsum : vs.sum = n * μ) (hne : μ ≠ b) :
    oneCost vs μ < oneCost vs b := by
  rw [oneCost_expand, oneCost_expand, hlen, hsum]
  have hsq : 0 < (μ - b) ^ 2 := by
    have hne' : μ - b ≠ 0 := sub_ne_zero.mpr hne
    exact lt_of_le_of_ne (sq_nonneg _) (Ne.symm (pow_ne_zero 2 hne'))
  nlinarith [mul_pos hn hsq]

theorem sqDist_nil_left (y : Point) : sqDist [] y = 0 := by
  simp [sqDist]

theorem sqDist_cons (a b : ℚ) (x y : Point) :
    sqDist (a :: x) (b :: y) = (a - b) ^ 2 + sqDist x y := by
  simp [sqDist]

theorem clusterCost_of_all_nil (c : Point) :
    ∀ (ps : List Point), (∀ p ∈ ps, p = []) → clusterCost ps c = 0
  | [], _ => by simp [clusterCost]
  | p :: ps, h => by
    have hp : p = [] := h p (List.mem_cons_self _ _)
    have ih := clusterCost_of_all_nil c ps (fun q hq => h q (List.mem_cons_of_mem _ hq))
    simp only [clusterCost, List.map_cons, List.sum_cons] at ih ⊢
    rw [hp, sqDist_nil_left, ih, add_zero]

theorem clusterCost_cons_dim : ∀ (ps : List Point) (ch : ℚ) (ct : Point),
    (∀ p ∈ ps, p ≠ []) →
    clusterCost ps (ch :: ct)
      = oneCost (ps.map (fun p => p.headI)) ch
        + clusterCost (ps.map List.tail) ct
  | [], _, _, _ => by simp [clusterCost, oneCost]
  | p :: ps, ch, ct, h => by
    have hp : p ≠ [] := h p (List.mem_cons_self _ _)
    obtain ⟨a, x, rfl⟩ : ∃ a x, p = a :: x := by
      cases p with
      | nil => exact absurd rfl hp
      | cons a x => exact ⟨a, x, rfl⟩
    have ih := clusterCost_cons_dim ps ch ct
      (fun q hq => h q (List.mem_cons_of_mem _ hq))
    simp only [clusterCost, oneCost, List.map_cons, List.sum_cons, List.headI_cons,
      List.tail_cons] at ih ⊢
    rw [sqDist_cons, ih]
    ring

theorem pointSum_cons (p : Point) (ps : List Point) (h : ps ≠ []) :
    pointSum (p :: ps) = List.zipWith (· + ·) p (pointSum ps) := by
  cases ps with
  | nil => exact absurd rfl h
  | cons q ps => rfl

theorem pointSum_dim : ∀ (ps : List Point),
    ps ≠ [] → (∀ p ∈ ps, p ≠ []) →
    pointSum ps
      = ((ps.map (fun p => p.headI)).sum : ℚ) :: pointSum (ps.map List.tail)
  | [], h, _ => absurd rfl h
  | [p], _, hall => by
    have hp : p ≠ [] := hall p (List.mem_cons_self _ _)
    obtain ⟨a, x, rfl⟩ : ∃ a x, p = a :: x := by
      cases p with
      | nil => exact absurd rfl hp
      | cons a x => exact ⟨a, x, rfl⟩
    simp [pointSum]
  | p :: q :: ps, _, hall => by
    have hp : p ≠ [] := hall p (List.mem_cons_self _ _)
    obtain ⟨a, x, rfl⟩ : ∃ a x, p = a :: x := by
      cases p with
      | nil => exact absurd rfl hp
      | cons a x => exact ⟨a, x, rfl⟩
    have ih := pointSum_dim (q :: ps) (by simp)
      (fun r hr => hall r (List.mem_cons_of_mem _ hr))
    rw [pointSum_cons _ _ (by simp), ih]
    simp only [List.map_cons, List.sum_cons, List.headI_cons, List.tail_cons,
      List.zipWith_cons_cons]
    rw [pointSum_cons x (List.tail q :: List.map List.tail ps) (by simp)]

theorem centroidOf_indep (ps : List Point) (h : ps ≠ []) (old old' : Point) :
    centroidOf ps old = centroidOf ps old' := by
  cases ps with
  | nil => exact absurd rfl h
  | cons p ps => rfl

theorem centroidOf_dim (ps : List Point) (hne : ps ≠ [])
    (hall : ∀ p ∈ ps, p ≠ []) (old : Point) :
    centroidOf ps old
      = ((ps.map (fun p => p.headI)).sum / (ps.length : ℚ))
        :: centroidOf (ps.map List.tail) [] := by
  cases ps with
  | nil => exact absurd rfl hne
  | cons p ps =>
    have hsum := pointSum_dim (p :: ps) (by simp) hall
    have h1 : centroidOf (p :: ps) old
        = (pointSum (p :: ps)).map (fun q => q / (((p :: ps).length : ℕ) : ℚ)) := rfl
    cases hmt : (p :: ps).map List.tail with
    | nil => simp at hmt
    | cons t ts =>
      have h2 : centroidOf ((p :: ps).map List.tail) []
          = (pointSum ((p :: ps).map List.tail)).map
              (fun q => q / ((((p :: ps).map List.tail).length : ℕ) : ℚ)) := by
        rw [hmt]
        rfl
      have hlen : ((((p :: ps).map List.tail).length : ℕ) : ℚ)
          = (((p :: ps).length : ℕ) : ℚ) := by simp
      rw [h1, hsum, List.map_cons, ← hmt, h2, hlen]

theorem clusterCost_centroid_le : ∀ (D : ℕ) (ps : List Point) (c old : Point),
    (∀ p ∈ ps, p.length = D) → c.length = D → ps ≠ [] →
    clusterCost ps (centroidOf ps old) ≤ clusterCost ps c
  | 0, ps, c, old, hps, hc, hne => by
    have hall : ∀ p ∈ ps, p = [] := fun p hp => List.length_eq_zero.mp (hps p hp)
    rw [clusterCost_of_all_nil _ ps hall, clusterCost_of_all_nil _ ps hall]
  | D + 1, ps, c, old, hps, hc, hne => by
    have hallne : ∀ p ∈ ps, p ≠ [] := by
      intro p hp h0
      have := hps p hp
      rw [h0] at this
      simp at this
    obtain ⟨ch, ct, rfl⟩ : ∃ ch ct, c = ch :: ct := by
      cases c with
      | nil => simp at hc
      | cons ch ct => exact ⟨ch, ct, rfl⟩
    have hct : ct.length = D := by simpa using hc
    rw [centroidOf_dim ps hne hallne old]
    rw [clusterCost_cons_dim ps _ _ hallne, clusterCost_cons_dim ps _ _ hallne]
    have hn : (0:ℚ) < (ps.length : ℚ) := by
      have := List.length_pos.mpr hne
      exact_mod_cast this
    have h1 : oneCost (ps.map (fun p => p.headI))
        ((ps.map (fun p => p.headI)).sum / (ps.length : ℚ))
        ≤ oneCost (ps.map (fun p => p.headI)) ch := by
      apply oneCost_mean_le _ (ps.length : ℚ) _ ch hn
      · simp
      · rw [mul_div_cancel₀ _ (ne_of_gt hn)]
    have h2 : clusterCost (ps.map List.tail)
        (centroidOf (ps.map List.tail) [])
        ≤ clusterCost (ps.map List.tail) ct := by
      apply clusterCost_centroid_le D _ _ _ _ hct (by simpa using hne)
      intro t ht
      rcases List.mem_map.mp ht with ⟨p, hp, rfl⟩
      have := hps p hp
      cases p with
      | nil => simp at this
      | cons a x => simpa using this
    exact add_le_add h1 h2

theorem pointSum_all_nil : ∀ (ps : List Point), (∀ p ∈ ps, p = []) → pointSum ps = []
  | [], _ => rfl
  | [p], h => h p (List.mem_cons_self _ _)
  | p :: q :: ps, h => by
    have hp : p = [] := h p (List.mem_cons_self _ _)
    rw [pointSum_cons _ _ (by simp), hp]
    rfl

theorem clusterCost_centroid_lt : ∀ (D : ℕ) (ps : List Point) (c old : Point),
    (∀ p ∈ ps, p.length = D) → c.length = D → ps ≠ [] →
    centroidOf ps old ≠ c →
    clusterCost ps (centroidOf ps old) < clusterCost ps c
  | 0, ps, c, old, hps, hc, hne, hcne => by
    exfalso
    have hall : ∀ p ∈ ps, p = [] := fun p hp => List.length_eq_zero.mp (hps p hp)
    have hcnil : c = [] := List.length_eq_zero.mp hc
    apply hcne
    cases ps with
    | nil => exact absurd rfl hne
    | cons p ps =>
      simp only [centroidOf]
      rw [pointSum_all_nil _ hall, hcnil]
      rfl
  | D + 1, ps, c, old, hps, hc, hne, hcne => by
    have hallne : ∀ p ∈ ps, p ≠ [] := by
      intro p hp h0
      have := hps p hp
      rw [h0] at this
      simp at this
    obtain ⟨ch, ct, rfl⟩ : ∃ ch ct, c = ch :: ct := by
      cases c with
      | nil => simp at hc
      | cons ch ct => exact ⟨ch, ct, rfl⟩
    have hct : ct.length = D := by simpa using hc
    have htails : ∀ t ∈ ps.map List.tail, t.length = D := by
      intro t ht
      rcases List.mem_map.mp ht with ⟨p, hp, rfl⟩
      have := hps p hp
      cases p with
      | nil => simp at this
      | cons a x => simpa using this
    have hn : (0:ℚ) < (ps.length : ℚ) := by
      have := List.length_pos.mpr hne
      exact_mod_cast this
    have hdim := centroidOf_dim ps hne hallne old
    rw [hdim] at hcne ⊢
    rw [clusterCost_cons_dim ps _ _ hallne, clusterCost_cons_dim ps _ _ hallne]
    by_cases hh : (ps.map (fun p => p.headI)).sum / (ps.length : ℚ) = ch
    · have hmt : centroidOf (ps.map List.tail) [] ≠ ct := by
        intro h
        exact hcne (by rw [hh, h])
      have h1 : oneCost (ps.map (fun p => p.headI))
          ((ps.map (fun p => p.headI)).sum / (ps.length : ℚ))
          ≤ oneCost (ps.map (fun p => p.headI)) ch := by
        apply oneCost_mean_le _ (ps.length : ℚ) _ ch hn
        · simp
        · rw [mul_div_cancel₀ _ (ne_of_gt hn)]
      have h2 : clusterCost (ps.map List.tail)
          (centroidOf (ps.map List.tail) [])
          < clusterCost (ps.map List.tail) ct :=
        clusterCost_centroid_lt D _ _ [] htails hct (by simpa using hne) hmt
      exact add_lt_add_of_le_of_lt h1 h2
    · have h1 : oneCost (ps.map (fun p => p.headI))
          ((ps.map (fun p => p.headI)).sum / (ps.length : ℚ))
          < oneCost (ps.map (fun p => p.headI)) ch := by
        apply oneCost_mean_lt _ (ps.length : ℚ) _ ch hn _ _ hh
        · simp
        · rw [mul_div_cancel₀ _ (ne_of_gt hn)]
      have h2 : clusterCost (ps.map List.tail)
          (centroidOf (ps.map List.tail) [])
          ≤ clusterCost (ps.map List.tail) ct :=
        clusterCost_centroid_le D _ _ [] htails hct (by simpa using hne)
      exact add_lt_add_of_lt_of_le h1 h2

/-! ## The objective decomposes cluster-by-cluster, and the update step
never increases it. -/

theorem sum_partition (K : ℕ) (g : ℕ → Point) :
    ∀ (l : List (Point × ℕ)), (∀ p ∈ l, p.2 < K) →
    (l.map (fun p => sqDist p.1 (g p.2))).sum
      = ∑ k ∈ Finset.range K,
          ((l.filter (fun p => p.2 == k)).map (fun p => sqDist p.1 (g k))).sum
  | [], _ => by simp
  | p :: l, h => by
    have ih := sum_partition K g l (fun q hq => h q (List.mem_cons_of_mem _ hq))
    have hpK : p.2 ∈ Finset.range K :=
      Finset.mem_range.mpr (h p (List.mem_cons_self _ _))
    have hterm : ∀ k ∈ Finset.range K,
        ((List.filter (fun q => q.2 == k) (p :: l)).map
          (fun q => sqDist q.1 (g k))).sum
          = (if p.2 = k then sqDist p.1 (g k) else 0)
            + ((List.filter (fun q => q.2 == k) l).map
                (fun q => sqDist q.1 (g k))).sum := by
      intro k _
      by_cases hk : p.2 = k
      · simp [List.filter_cons, hk]
      · simp [List.filter_cons, hk]
    rw [Finset.sum_congr rfl hterm, Finset.sum_add_distrib]
    simp only [List.map_cons, List.sum_cons, ih]
    congr 1
    rw [Finset.sum_ite_eq (Finset.range K) p.2 (fun k => sqDist p.1 (g k))]
    simp [hpK]

theorem cost_eq_sum_clusters (xs : List Point) (a : List ℕ) (cs : List Point)
    (hv : ∀ p ∈ xs.zip a, p.2 < cs.length) :
    cost xs a cs
      = ∑ k ∈ Finset.range cs.length,
          clusterCost (clusterRows xs a k) (cs.getD k []) := by
  rw [cost, sum_partition cs.length (fun k => cs.getD k []) (xs.zip a) hv]
  apply Finset.sum_congr rfl
  intro k _
  rw [clusterCost, clusterRows, List.map_map]
  rfl

theorem clusterRows_sub (xs : List Point) (a : List ℕ) (k : ℕ) :
    ∀ p ∈ clusterRows xs a k, p ∈ xs := by
  intro p hp
  rcases List.mem_map.mp hp with ⟨q, hq, rfl⟩
  exact (List.of_mem_zip (List.mem_of_mem_filter hq)).1

theorem updateStep_length (xs : List Point) (a : List ℕ) (cs : List Point) :
    (updateStep xs a cs).length = cs.length := by
  simp [updateStep]

theorem updateStep_getD (xs : List Point) (a : List ℕ) (cs : List Point)
    (k : ℕ) (hk : k < cs.length) :
    (updateStep xs a cs).getD k []
      = centroidOf (clusterRows xs a k) (cs.getD k []) := by
  have hk' : k < ((List.range cs.length).map
      (fun k => centroidOf (clusterRows xs a k) (cs.getD k []))).length := by
    simpa using hk
  rw [updateStep, List.getD_eq_getElem _ _ hk', List.getElem_map, List.getElem_range]

theorem getD_mem_of_lt {α : Type} (l : List α) (k : ℕ) (d : α) (hk : k < l.length) :
    l.getD k d ∈ l := by
  rw [List.getD_eq_getElem _ _ hk]
  exact List.getElem_mem _

theorem cost_updateStep_le (D : ℕ) (xs : List Point) (a : List ℕ)
    (cs : List Point) (hxs : rectangular D xs) (hcs : rectangular D cs)
    (hv : validAssign cs.length a) :
    cost xs a (updateStep xs a cs) ≤ cost xs a cs := by
  have hvz : ∀ p ∈ xs.zip a, p.2 < cs.length :=
    fun p hp => hv p.2 (List.of_mem_zip hp).2
  have hvz' : ∀ p ∈ xs.zip a, p.2 < (updateStep xs a cs).length := by
    rw [updateStep_length]
    exact hvz
  rw [cost_eq_sum_clusters xs a cs hvz, cost_eq_sum_clusters xs a _ hvz',
    updateStep_length]
  apply Finset.sum_le_sum
  intro k hk
  have hklt : k < cs.length := Finset.mem_range.mp hk
  rw [updateStep_getD xs a cs k hklt]
  cases hrows : clusterRows xs a k with
  | nil => rw [centroidOf]
  | cons r rs =>
    rw [← hrows]
    apply clusterCost_centroid_le D
    · intro p hp
      exact hxs p (clusterRows_sub xs a k p hp)
    · exact hcs _ (getD_mem_of_lt cs k [] hklt)
    · rw [hrows]
      simp

theorem exists_getD_ne {α : Type} (d : α) :
    ∀ (l1 l2 : List α), l1.length = l2.length → l1 ≠ l2 →
      ∃ k, k < l1.length ∧ l1.getD k d ≠ l2.getD k d
  | [], [], _, hne => absurd rfl hne
  | [], b :: l2, hl, _ => by simp at hl
  | a :: l1, [], hl, _ => by simp at hl
  | a :: l1, b :: l2, hl, hne => by
    by_cases hab : a = b
    · have htl : l1 ≠ l2 := by
        intro h
        exact hne (by rw [hab, h])
      obtain ⟨k, hk, hd⟩ := exists_getD_ne d l1 l2 (by simpa using hl) htl
      exact ⟨k + 1, by simpa using hk, by simpa using hd⟩
    · exact ⟨0, by simp, by simpa using hab⟩

theorem cost_updateStep_lt (D : ℕ) (xs : List Point) (a : List ℕ)
    (cs : List Point) (hxs : rectangular D xs) (hcs : rectangular D cs)
    (hv : validAssign cs.length a) (hne : updateStep xs a cs ≠ cs) :
    cost xs a (updateStep xs a cs) < cost xs a cs := by
  have hvz : ∀ p ∈ xs.zip a, p.2 < cs.length :=
    fun p hp => hv p.2 (List.of_mem_zip hp).2
  have hvz' : ∀ p ∈ xs.zip a, p.2 < (updateStep xs a cs).length := by
    rw [updateStep_length]
    exact hvz
  obtain ⟨k0, hk0, hd⟩ := exists_getD_ne [] (updateStep xs a cs) cs
    (updateStep_length xs a cs) hne
  rw [updateStep_length] at hk0
  rw [cost_eq_sum_clusters xs a cs hvz, cost_eq_sum_clusters xs a _ hvz',
    updateStep_length]
  apply Finset.sum_lt_sum
  · intro k hk
    have hklt : k < cs.length := Finset.mem_range.mp hk
    rw [updateStep_getD xs a cs k hklt]
    cases hrows : clusterRows xs a k with
    | nil => rw [centroidOf]
    | cons r rs =>
      rw [← hrows]
      apply clusterCost_centroid_le D
      · intro p hp
        exact hxs p (clusterRows_sub xs a k p hp)
      · exact hcs _ (getD_mem_of_lt cs k [] hklt)
      · rw [hrows]
        simp
  · refine ⟨k0, Finset.mem_range.mpr hk0, ?_⟩
    rw [updateStep_getD xs a cs k0 hk0]
    rw [updateStep_getD xs a cs k0 hk0] at hd
    have hrowsne : clusterRows xs a k0 ≠ [] := by
      intro h0
      apply hd
      rw [h0, centroidOf]
    apply clusterCost_centroid_lt D
    · intro p hp
      exact hxs p (clusterRows_sub xs a k0 p hp)
    · exact hcs _ (getD_mem_of_lt cs k0 [] hk0)
    · exact hrowsne
    · exact hd

/-! ## One full iteration never increases the objective. -/

theorem cost_step_le (D : ℕ) (xs : List Point) (a : List ℕ) (cs : List Point)
    (hxs : rectangular D xs) (hcs : rectangular D cs) (hne : cs ≠ [])
    (hv : validAssign cs.length a) (hl : a.length = xs.length) :
    cost xs (assignStep xs cs) (updateStep xs (assignStep xs cs) cs)
      ≤ cost xs a cs :=
  le_trans
    (cost_updateStep_le D xs (assignStep xs cs) cs hxs hcs
      (assignStep_valid xs cs hne))
    (cost_assignStep_le cs hne xs a hl hv)

/-! ## Termination: a strictly decreasing potential over the finitely many
labeled partitions. -/

theorem cost_updateStep_eq_potential (xs : List Point) (a : List ℕ)
    (cs : List Point) (hv : validAssign cs.length a) :
    cost xs a (updateStep xs a cs) = lloydPotential xs cs.length a := by
  have hvz' : ∀ p ∈ xs.zip a, p.2 < (updateStep xs a cs).length := by
    rw [updateStep_length]
    exact fun p hp => hv p.2 (List.of_mem_zip hp).2
  rw [cost_eq_sum_clusters xs a _ hvz', updateStep_length, lloydPotential]
  apply Finset.sum_congr rfl
  intro k hk
  rw [updateStep_getD xs a cs k (Finset.mem_range.mp hk)]
  cases hrows : clusterRows xs a k with
  | nil => simp [clusterCost, centroidOf]
  | cons r rs =>
    rw [← hrows, centroidOf_indep _ (by rw [hrows]; simp)]

theorem pointSum_length (D : ℕ) : ∀ (ps : List Point),
    (∀ p ∈ ps, p.length = D) → ps ≠ [] → (pointSum ps).length = D
  | [], _, h => absurd rfl h
  | [p], hp, _ => by
    simpa [pointSum] using hp p (List.mem_cons_self _ _)
  | p :: q :: ps, hp, _ => by
    have ih := pointSum_length D (q :: ps)
      (fun r hr => hp r (List.mem_cons_of_mem _ hr)) (by simp)
    rw [pointSum_cons _ _ (by simp), List.length_zipWith, ih,
      hp p (List.mem_cons_self _ _), min_self]

theorem centroidOf_length (D : ℕ) (ps : List Point) (old : Point)
    (hold : old.length = D) (hps : ∀ p ∈ ps, p.length = D) :
    (centroidOf ps old).length = D := by
  cases ps with
  | nil => simpa [centroidOf] using hold
  | cons p ps' =>
    show ((pointSum (p :: ps')).map _).length = D
    rw [List.length_map, pointSum_length D _ hps (by simp)]

theorem updateStep_rectangular (D : ℕ) (xs : List Point) (a : List ℕ)
    (cs : List Point) (hxs : rectangular D xs) (hcs : rectangular D cs) :
    rectangular D (updateStep xs a cs) := by
  intro p hp
  rcases List.mem_map.mp hp with ⟨k, hk, rfl⟩
  have hklt : k < cs.length := List.mem_range.mp hk
  apply centroidOf_length D
  · exact hcs _ (getD_mem_of_lt cs k [] hklt)
  · intro r hr
    exact hxs r (clusterRows_sub xs a k r hr)

theorem listOf_length {N K : ℕ} (b : Fin N → Fin K) : (listOf b).length = N := by
  simp [listOf]

theorem exists_encode (N K : ℕ) (a : List ℕ) (hv : validAssign K a)
    (hlen : a.length = N) : ∃ b : Fin N → Fin K, listOf b = a := by
  refine ⟨fun i => ⟨a.getD i 0,
    hv _ (getD_mem_of_lt a i 0 (by rw [hlen]; exact i.isLt))⟩, ?_⟩
  apply List.ext_getElem
  · simp [listOf, hlen]
  · intro n h1 h2
    simp only [listOf, List.getElem_map, List.getElem_finRange]
    exact List.getD_eq_getElem a 0 h2

theorem lloydLoop_fix (xs : List Point) (a : List ℕ) (cs : List Point)
    (h : assignStep xs cs = a) :
    ∀ fuel, lloydLoop xs fuel a cs = (a, cs)
  | 0 => rfl
  | fuel + 1 => by simp [lloydLoop, h]

theorem lloydLoop_converges (xs : List Point) (D : ℕ) :
    ∀ (fuel : ℕ) (a : List ℕ) (cs : List Point),
    rectangular D xs → rectangular D cs → cs ≠ [] →
    validAssign cs.length a → a.length = xs.length →
    cost xs a cs = lloydPotential xs cs.length a →
    (potSet xs xs.length cs.length (lloydPotential xs cs.length a)).card + 1
      ≤ fuel →
    converged xs (lloydLoop xs fuel a cs)
  | 0, a, cs, _, _, _, _, _, _, hfuel => by omega
  | fuel + 1, a, cs, hxs, hcs, hne, hv, hl, hpot, hfuel => by
    show converged xs
      (if assignStep xs cs = a then (a, cs)
        else lloydLoop xs fuel (assignStep xs cs)
          (updateStep xs (assignStep xs cs) cs))
    by_cases ha : assignStep xs cs = a
    · rw [if_pos ha]
      exact ha
    · rw [if_neg ha]
      by_cases hcs' : updateStep xs (assignStep xs cs) cs = cs
      · have hconv : assignStep xs (updateStep xs (assignStep xs cs) cs)
            = assignStep xs cs := by rw [hcs']
        rw [lloydLoop_fix xs _ _ hconv fuel]
        exact hconv
      · -- the potential strictly decreases; recurse
        have hv' : validAssign cs.length (assignStep xs cs) :=
          assignStep_valid xs cs hne
        have hlt : lloydPotential xs cs.length (assignStep xs cs)
            < lloydPotential xs cs.length a := by
          calc lloydPotential xs cs.length (assignStep xs cs)
              = cost xs (assignStep xs cs)
                  (updateStep xs (assignStep xs cs) cs) :=
                (cost_updateStep_eq_potential xs _ cs hv').symm
            _ < cost xs (assignStep xs cs) cs :=
                cost_updateStep_lt D xs _ cs hxs hcs hv' hcs'
            _ ≤ cost xs a cs := cost_assignStep_le cs hne xs a hl hv
            _ = lloydPotential xs cs.length a := hpot
        obtain ⟨b, hb⟩ := exists_encode xs.length cs.length (assignStep xs cs)
          hv' (assignStep_length xs cs)
        have hbin : b ∈ potSet xs xs.length cs.length
            (lloydPotential xs cs.length a) := by
          rw [potSet, Finset.mem_filter]
          exact ⟨Finset.mem_univ _, by rw [hb]; exact hlt⟩
        have hbout : b ∉ potSet xs xs.length cs.length
            (lloydPotential xs cs.length (assignStep xs cs)) := by
          rw [potSet, Finset.mem_filter]
          rintro ⟨-, hcon⟩
          rw [hb] at hcon
          exact lt_irrefl _ hcon
        have hsub : potSet xs xs.length cs.length
            (lloydPotential xs cs.length (assignStep xs cs))
            ⊆ potSet xs xs.length cs.length
              (lloydPotential xs cs.length a) := by
          intro b' hb'
          rw [potSet, Finset.mem_filter] at hb' ⊢
          exact ⟨hb'.1, lt_trans hb'.2 hlt⟩
        have hcard : (potSet xs xs.length cs.length
            (lloydPotential xs cs.length (assignStep xs cs))).card
            < (potSet xs xs.length cs.length
                (lloydPotential xs cs.length a)).card :=
          Finset.card_lt_card
            ((Finset.ssubset_iff_of_subset hsub).mpr ⟨b, hbin, hbout⟩)
        have hne' : updateStep xs (assignStep xs cs) cs ≠ [] := by
          intro h0
          have hl0 := updateStep_length xs (assignStep xs cs) cs
          rw [h0] at hl0
          exact hne ((List.length_eq_zero).mp hl0.symm)
        apply lloydLoop_converges xs D fuel (assignStep xs cs)
          (updateStep xs (assignStep xs cs) cs) hxs
          (updateStep_rectangular D xs _ cs hxs hcs) hne'
        · rw [updateStep_length]
          exact hv'
        · exact assignStep_length xs cs
        · rw [updateStep_length]
          exact cost_updateStep_eq_potential xs _ cs hv'
        · rw [updateStep_length]
          omega

theorem kmeans_converges (D : ℕ) (xs cs0 : List Point) (cap : ℕ)
    (hxs : rectangular D xs) (hcs : rectangular D cs0) (hne : cs0 ≠ [])
    (hcap : cs0.length ^ xs.length ≤ cap) :
    converged xs (kmeansRun xs cs0 cap) := by
  have hv1 : validAssign cs0.length (assignStep xs cs0) :=
    assignStep_valid xs cs0 hne
  have hne1 : updateStep xs (assignStep xs cs0) cs0 ≠ [] := by
    intro h0
    have hl0 := updateStep_length xs (assignStep xs cs0) cs0
    rw [h0] at hl0
    exact hne ((List.length_eq_zero).mp hl0.symm)
  apply lloydLoop_converges xs D cap (assignStep xs cs0)
    (updateStep xs (assignStep xs cs0) cs0) hxs
    (updateStep_rectangular D xs _ cs0 hxs hcs) hne1
  · rw [updateStep_length]
    exact hv1
  · exact assignStep_length xs cs0
  · rw [updateStep_length]
    exact cost_updateStep_eq_potential xs _ cs0 hv1
  · rw [updateStep_length]
    obtain ⟨b, hb⟩ := exists_encode xs.length cs0.length (assignStep xs cs0)
      hv1 (assignStep_length xs cs0)
    have hsub : potSet xs xs.length cs0.length
        (lloydPotential xs cs0.length (assignStep xs cs0))
        ⊆ Finset.univ.erase b := by
      intro b' hb'
      rw [potSet, Finset.mem_filter] at hb'
      rw [Finset.mem_erase]
      refine ⟨?_, Finset.mem_univ _⟩
      intro heq
      rw [heq, hb] at hb'
      exact lt_irrefl _ hb'.2
    have hcard := Finset.card_le_card hsub
    rw [Finset.card_erase_of_mem (Finset.mem_univ b), Finset.card_univ,
      Fintype.card_fun, Fintype.card_fin, Fintype.card_fin] at hcard
    have hKN : 0 < cs0.length ^ xs.length :=
      pow_pos (List.length_pos.mpr hne) _
    omega

theorem assignStep_getD (xs cs : List Point) (j : ℕ) (hj : j < xs.length) :
    (assignStep xs cs).getD j 0 = nearest (xs.getD j []) cs := by
  have hj' : j < (assignStep xs cs).length := by
    rw [assignStep_length]
    exact hj
  rw [List.getD_eq_getElem _ _ hj', List.getD_eq_getElem _ _ hj]
  simp [assignStep]

theorem converged_rows_optimal (xs cs : List Point) (a : List ℕ)
    (hconv : assignStep xs cs = a) (hne : cs ≠ []) :
    ∀ j, j < xs.length → ∀ k, k < cs.length →
      sqDist (xs.getD j []) (cs.getD (a.getD j 0) [])
        ≤ sqDist (xs.getD j []) (cs.getD k []) := by
  intro j hj k hk
  have ha : a.getD j 0 = nearest (xs.getD j []) cs := by
    rw [← hconv]
    exact assignStep_getD xs cs j hj
  rw [ha, sqDist_nearest _ cs hne]
  exact minDist_le _ cs k hk

/-! ## Per-feature min–max normalization (the spec's feature-scaling caveat). -/

theorem simple_squares_go (acc : List ℤ) : ∀ (numbers : List ℤ),
    numbers.foldl (fun squares number => squares ++ [number * number]) acc
      = acc ++ numbers.map (fun x => x * x)
  | [] => by simp
  | n :: ns => by
    rw [List.foldl_cons, simple_squares_go (acc ++ [n * n]) ns]
    simp

theorem loopFilterSquares_go (acc : List ℤ) : ∀ (numbers : List ℤ),
    numbers.foldl (fun squares number =>
        if number < 4 then squares ++ [number * number] else squares) acc
      = acc ++ mapFilterSquares numbers
  | [] => by simp [mapFilterSquares]
  | n :: ns => by
    by_cases h : n < 4
    · rw [List.foldl_cons, if_pos h, loopFilterSquares_go (acc ++ [n * n]) ns]
      simp [mapFilterSquares, List.filter_cons, h]
    · rw [List.foldl_cons, if_neg h, loopFilterSquares_go acc ns]
      simp [mapFilterSquares, List.filter_cons, h]
/-! ## The claims. -/

/-- C1: for every dataset, every centroid list, and every iteration state
`(a, cs)` of the restated Lloyd procedure (rectangular data, an in-range
assignment entry for every row), the sum-of-squared-distances objective
measured after the next iteration's update step is at most the objective of
the current state: the objective is monotone non-increasing across
iterations. -/
theorem claim_C1_objective_monotone (D : ℕ) (xs : List Point) (a : List ℕ)
    (cs : List Point) (hxs : rectangular D xs) (hcs : rectangular D cs)
    (hne : cs ≠ []) (hv : validAssign cs.length a)
    (hl : a.length = xs.length) :
    cost xs (assignStep xs cs) (updateStep xs (assignStep xs cs) cs)
      ≤ cost xs a cs :=
  cost_step_le D xs a cs hxs hcs hne hv hl

theorem claim_C1_objective_monotone_witness :
    (rectangular 1 [[0],[4],[5],[6]] ∧ rectangular 1 [[5],[6]] ∧
      ([[5],[6]] : List Point) ≠ [] ∧
      validAssign ([[5],[6]] : List Point).length [0,0,0,1] ∧
      ([0,0,0,1] : List ℕ).length = ([[0],[4],[5],[6]] : List Point).length) ∧
    cost [[0],[4],[5],[6]] (assignStep [[0],[4],[5],[6]] [[5],[6]])
        (updateStep [[0],[4],[5],[6]]
          (assignStep [[0],[4],[5],[6]] [[5],[6]]) [[5],[6]])
      ≤ cost [[0],[4],[5],[6]] [0,0,0,1] [[5],[6]] :=
  ⟨⟨by decide, by decide, by decide, by decide, by decide⟩,
    claim_C1_objective_monotone 1 [[0],[4],[5],[6]] [0,0,0,1] [[5],[6]]
      (by decide) (by decide) (by decide) (by decide) (by decide)⟩

/-- C2: for fixed `N`, `D`, `K`, the restated iterative loop terminates
within a number of iterations bounded by the number `K ^ N` of distinct
partitions of the `N` rows into `K` labeled groups: a run whose iteration
budget is at least `K ^ N` has reached the stopping condition (no row
changes assignment). -/
theorem claim_C2_terminates_within_partitions (D : ℕ) (xs cs0 : List Point)
    (cap : ℕ) (hxs : rectangular D xs) (hcs : rectangular D cs0)
    (hne : cs0 ≠ []) (hcap : cs0.length ^ xs.length ≤ cap) :
    converged xs (kmeansRun xs cs0 cap) :=
  kmeans_converges D xs cs0 cap hxs hcs hne hcap

theorem claim_C2_terminates_within_partitions_witness :
    (rectangular 1 [[0],[1]] ∧ rectangular 1 [[0],[1]] ∧
      ([[0],[1]] : List Point) ≠ [] ∧
      ([[0],[1]] : List Point).length ^ ([[0],[1]] : List Point).length ≤ 4) ∧
    converged [[0],[1]] (kmeansRun [[0],[1]] [[0],[1]] 4) :=
  ⟨⟨by decide, by decide, by decide, by decide⟩,
    claim_C2_terminates_within_partitions 1 [[0],[1]] [[0],[1]] 4
      (by decide) (by decide) (by decide) (by decide)⟩

/-- C3 as stated is false: under the iteration-cap stopping rule a stopped
run can leave a row strictly closer to a centroid other than its own.  The
capped run on rows `[[0],[4],[5],[6]]` from centroids `[[5],[6]]` stops
with row 1 (the row `[4]`) assigned to cluster 0, although it is strictly
closer to centroid 1. -/
theorem claim_C3_cap_counterexample :
    (kmeansRun [[0],[4],[5],[6]] [[5],[6]] 1).1.getD 1 0 = 0 ∧
    sqDist [4] ((kmeansRun [[0],[4],[5],[6]] [[5],[6]] 1).2.getD 1 [])
      < sqDist [4] ((kmeansRun [[0],[4],[5],[6]] [[5],[6]] 1).2.getD 0 []) := by
  decide

/-- C3 amended: when a run stops because no row changes assignment (the
first stopping condition), every row's assigned centroid is a minimizer of
squared Euclidean distance over all centroids; under the
centroid-movement-threshold or iteration-cap stopping rules the property
can fail. -/
theorem claim_C3_converged_assignment_optimal (xs cs : List Point)
    (a : List ℕ) (hstop : assignStep xs cs = a) (hne : cs ≠ []) :
    ∀ j, j < xs.length → ∀ k, k < cs.length →
      sqDist (xs.getD j []) (cs.getD (a.getD j 0) [])
        ≤ sqDist (xs.getD j []) (cs.getD k []) :=
  converged_rows_optimal xs cs a hstop hne

theorem claim_C3_converged_assignment_optimal_witness :
    (assignStep [[0],[4],[5],[6]] [[0],[5]] = [0,1,1,1] ∧
      ([[0],[5]] : List Point) ≠ []) ∧
    (∀ j, j < ([[0],[4],[5],[6]] : List Point).length →
      ∀ k, k < ([[0],[5]] : List Point).length →
        sqDist (([[0],[4],[5],[6]] : List Point).getD j [])
            (([[0],[5]] : List Point).getD (([0,1,1,1] : List ℕ).getD j 0) [])
          ≤ sqDist (([[0],[4],[5],[6]] : List Point).getD j [])
              (([[0],[5]] : List Point).getD k [])) :=
  ⟨⟨by decide, by decide⟩,
    claim_C3_converged_assignment_optimal [[0],[4],[5],[6]] [[0],[5]]
      [0,1,1,1] (by decide) (by decide)⟩

/-- C4 as stated is false: the initialization that draws the two initial
centroids `[0,0]` and `[0,1]` from the four scenario rows converges to the
centroids `[5,0]` and `[5,1]`, splitting rows by the second coordinate —
not to `[0, 1/2]` and `[10, 1/2]` with rows `{0,1}` and `{2,3}` grouped. -/
theorem claim_C4_initialization_counterexample :
    kmeansRun scenarioRows [[0,0],[0,1]] 16 = ([0,1,0,1], [[5,0],[5,1]]) ∧
    converged scenarioRows (kmeansRun scenarioRows [[0,0],[0,1]] 16) ∧
    ¬ scenarioGood [0,0] [0,1] := by
  decide

/-- C4 amended: every initialization drawing the two initial centroids from
the four scenario rows — except the four ordered pairs that take the two
distinct rows of one side, `([0,0],[0,1])`, `([0,1],[0,0])`,
`([10,0],[10,1])`, `([10,1],[10,0])` — converges to the centroids
`[0, 1/2]` and `[10, 1/2]` (in some order) with rows 0 and 1 in one cluster
and rows 2 and 3 in the other. -/
theorem claim_C4_scenario_amended :
    ∀ c0 ∈ scenarioRows, ∀ c1 ∈ scenarioRows,
      (¬ ([c0, c1] = [[0,0],[0,1]] ∨ [c0, c1] = [[0,1],[0,0]]
        ∨ [c0, c1] = [[10,0],[10,1]] ∨ [c0, c1] = [[10,1],[10,0]])) →
      scenarioGood c0 c1 := by
  decide

theorem claim_C4_scenario_amended_witness :
    (([0,0] : Point) ∈ scenarioRows ∧ ([10,0] : Point) ∈ scenarioRows ∧
      ¬ (([[0,0],[10,0]] : List Point) = [[0,0],[0,1]]
        ∨ ([[0,0],[10,0]] : List Point) = [[0,1],[0,0]]
        ∨ ([[0,0],[10,0]] : List Point) = [[10,0],[10,1]]
        ∨ ([[0,0],[10,0]] : List Point) = [[10,1],[10,0]])) ∧
    scenarioGood [0,0] [10,0] :=
  ⟨⟨by decide, by decide, by decide⟩,
    claim_C4_scenario_amended [0,0] (by decide) [10,0] (by decide) (by decide)⟩

/-- C5: the restated procedure is deterministic under a fixed seed — two
runs on an identical seed, dataset, cluster count and iteration cap produce
identical assignments and identical centroids.  (In this embedding the
procedure is a pure function, so determinism is definitional.) -/
theorem claim_C5_deterministic_seed (s1 s2 : ℕ) (xs1 xs2 : List Point)
    (K1 K2 c1 c2 : ℕ) (hs : s1 = s2) (hx : xs1 = xs2) (hK : K1 = K2)
    (hc : c1 = c2) :
    (kmeansSeeded s1 xs1 K1 c1).1 = (kmeansSeeded s2 xs2 K2 c2).1 ∧
    (kmeansSeeded s1 xs1 K1 c1).2 = (kmeansSeeded s2 xs2 K2 c2).2 := by
  subst hs
  subst hx
  subst hK
  subst hc
  exact ⟨rfl, rfl⟩

theorem claim_C5_deterministic_seed_witness :
    (3 = 3 ∧ ([[0],[1]] : List Point) = [[0],[1]] ∧ 2 = 2 ∧ 4 = 4) ∧
    ((kmeansSeeded 3 [[0],[1]] 2 4).1 = (kmeansSeeded 3 [[0],[1]] 2 4).1 ∧
      (kmeansSeeded 3 [[0],[1]] 2 4).2 = (kmeansSeeded 3 [[0],[1]] 2 4).2) :=
  ⟨⟨rfl, rfl, rfl, rfl⟩,
    claim_C5_deterministic_seed 3 3 [[0],[1]] [[0],[1]] 2 2 4 4
      rfl rfl rfl rfl⟩

/-- C6: the assignment step sends each row to the least index attaining the
minimum squared Euclidean distance: the assigned index is in range, its
distance is a minimum over all centroids, and every strictly smaller index
is strictly farther — so equal-minimal-distance ties resolve to the lowest
index, and a row coinciding with a centroid is assigned deterministically. -/
theorem claim_C6_ties_lowest_index (x : Point) (cs : List Point)
    (hne : cs ≠ []) :
    nearest x cs < cs.length ∧
    (∀ j, j < cs.length →
      sqDist x (cs.getD (nearest x cs) []) ≤ sqDist x (cs.getD j [])) ∧
    (∀ j, j < nearest x cs →
      sqDist x (cs.getD (nearest x cs) []) < sqDist x (cs.getD j [])) := by
  refine ⟨nearest_lt_length x cs hne, ?_, ?_⟩
  · intro j hj
    rw [sqDist_nearest x cs hne]
    exact minDist_le x cs j hj
  · intro j hj
    rw [sqDist_nearest x cs hne]
    exact minDist_lt_of_lt_nearest x cs j hj

theorem claim_C6_ties_lowest_index_witness :
    ([[0,0],[0,0],[1,0]] : List Point) ≠ [] ∧
    (nearest [0,0] [[0,0],[0,0],[1,0]]
        < ([[0,0],[0,0],[1,0]] : List Point).length ∧
      (∀ j, j < ([[0,0],[0,0],[1,0]] : List Point).length →
        sqDist [0,0] (([[0,0],[0,0],[1,0]] : List Point).getD
            (nearest [0,0] [[0,0],[0,0],[1,0]]) [])
          ≤ sqDist [0,0] (([[0,0],[0,0],[1,0]] : List Point).getD j [])) ∧
      (∀ j, j < nearest [0,0] [[0,0],[0,0],[1,0]] →
        sqDist [0,0] (([[0,0],[0,0],[1,0]] : List Point).getD
            (nearest [0,0] [[0,0],[0,0],[1,0]]) [])
          < sqDist [0,0] (([[0,0],[0,0],[1,0]] : List Point).getD j []))) :=
  ⟨by decide, claim_C6_ties_lowest_index [0,0] [[0,0],[0,0],[1,0]] (by decide)⟩

/-- C7 as stated is false: with initial centroids drawn from the rows (rows
0 and 2, before and after scaling respectively), the unnormalized and the
min–max-normalized runs of the scale-sensitivity scenario both converge to
the SAME partition of the four rows — rows `{0,1}` against rows `{2,3}` —
so the two runs do not yield different partitions. -/
theorem claim_C7_same_partition_counterexample :
    (kmeansRun scaleRows [[1,1000],[10,1]] 16).1 = [0,0,1,1] ∧
    (kmeansRun (minMaxNormalize 2 scaleRows)
        [(minMaxNormalize 2 scaleRows).getD 0 [],
          (minMaxNormalize 2 scaleRows).getD 2 []] 16).1 = [0,0,1,1] ∧
    converged scaleRows (kmeansRun scaleRows [[1,1000],[10,1]] 16) ∧
    converged (minMaxNormalize 2 scaleRows)
      (kmeansRun (minMaxNormalize 2 scaleRows)
        [(minMaxNormalize 2 scaleRows).getD 0 [],
          (minMaxNormalize 2 scaleRows).getD 2 []] 16) := by
  decide

/-- C7 amended: the unnormalized run groups the scale-sensitivity rows as
`{0,1}` versus `{2,3}` (the grouping of the dominant second coordinate),
and the min–max-normalized run produces that same partition (with different
centroids): for these rows grouping by the second coordinate coincides with
grouping by the first, so normalization changes the centroids but not the
partition. -/
theorem claim_C7_scale_scenario_amended :
    kmeansRun scaleRows [[1,1000],[10,1]] 16
      = ([0,0,1,1], [[3/2,1000],[21/2,1]]) ∧
    kmeansRun (minMaxNormalize 2 scaleRows)
        [(minMaxNormalize 2 scaleRows).getD 0 [],
          (minMaxNormalize 2 scaleRows).getD 2 []] 16
      = ([0,0,1,1], [[1/20,1],[19/20,0]]) ∧
    minMaxNormalize 2 scaleRows = [[0,1],[1/10,1],[9/10,0],[1,0]] := by
  decide

/-- C8: every tabular/text read the notebooks perform goes through a
delimiter-separated-values reader — each recorded call uses delimiter `|`
or the default comma, exactly two use `|` (the two classroom-dataset reads
of the articles data), the remaining one uses the comma — and every call
either infers its column names or is given them explicitly. -/
theorem claim_C8_dsv_reads :
    (∀ r ∈ readCalls, (r.delimiter = "|" ∨ r.delimiter = ",") ∧
      (r.headerInferred = true ∨ r.namesSupplied = true)) ∧
    (readCalls.filter (fun r => r.delimiter == "|")).length = 2 ∧
    (readCalls.filter (fun r => r.delimiter == ",")).length = 1 := by
  decide

/-- C9: the imperative square-and-filter loop, the `map`-over-`filter`
expression, and the distributed filter-then-map pipeline (collected back to
a list) agree on every integer list, and on `[1,2,3,4,5]` produce
`[1,4,9]`. -/
theorem claim_C9_filter_map_equivalent :
    (∀ numbers : List ℤ,
      loopFilterSquares numbers = mapFilterSquares numbers ∧
      mapFilterSquares numbers = rddFilterMapSquares numbers) ∧
    loopFilterSquares [1,2,3,4,5] = [1,4,9] := by
  constructor
  · intro numbers
    refine ⟨?_, rfl⟩
    rw [loopFilterSquares, loopFilterSquares_go [] numbers, List.nil_append]
  · decide

/-- C10: the loop-based `simple_squares` and the map-based `python_squares`
and `python_squares_lambda` compute the same squares on every integer list,
and on `[1,2,3,4,5]` produce `[1,4,9,16,25]`. -/
theorem claim_C10_squares_equivalent :
    (∀ numbers : List ℤ,
      simple_squares numbers = python_squares numbers ∧
      python_squares numbers = python_squares_lambda numbers) ∧
    simple_squares [1,2,3,4,5] = [1,4,9,16,25] := by
  constructor
  · intro numbers
    constructor
    · rw [simple_squares, simple_squares_go [] numbers, List.nil_append]
      rfl
    · rfl
  · decide

end CodasML
